import Mathlib

/-!
Verification of the giveaway-helper bot (src/bot.py) against its
natural-language specification.

The Python source is shallowly embedded: pure functions over strings become
Lean functions on `String` / `List Char`; the global in-memory dict
`GIVEAWAYS` becomes an insertion-ordered association list threaded through
the operations; timestamps are natural numbers counting minutes, with
day = t / 1440 and time-of-day = t % 1440; the external fuzzy date parser
(the dateutil library, not part of the repository source) is a parameter
`parse : String -> Option Nat`, where `none` stands for a parse exception,
together with a concrete model `parseModel` of its behaviour on bare
HH:MM tokens.
-/

set_option autoImplicit false

namespace Bot

/-! ## Character classes (Python regex classes, restricted to the character
ranges the bot actually deals with: ASCII, Latin-1 letters, Cyrillic). -/

/-- Python `\s` (whitespace), on the character ranges in scope. -/
def isSpaceC (c : Char) : Bool :=
  c = ' ' || c = '\t' || c = '\n' || c = '\r' ||
  c.toNat = 0x0b || c.toNat = 0x0c || c.toNat = 0x85 || c.toNat = 0xa0 ||
  c.toNat = 0x1680 || (0x2000 ≤ c.toNat && c.toNat ≤ 0x200a) ||
  c.toNat = 0x2028 || c.toNat = 0x2029 || c.toNat = 0x202f ||
  c.toNat = 0x205f || c.toNat = 0x3000

/-- Python `\w` (word character), on the character ranges in scope:
ASCII alphanumerics, underscore, Latin-1 letters, Cyrillic. -/
def isWordChar (c : Char) : Bool :=
  c.isAlphanum || c = '_' ||
  (0x400 ≤ c.toNat && c.toNat ≤ 0x4ff) ||
  (0xc0 ≤ c.toNat && c.toNat ≤ 0xff && c.toNat ≠ 0xd7 && c.toNat ≠ 0xf7)

/-- Python `\d` (ASCII decimal digit). -/
def isDigitC (c : Char) : Bool := '0' ≤ c && c ≤ '9'

/-- Python `str.lower` per character, on the ranges in scope: ASCII A-Z,
Latin-1 uppercase letters, Cyrillic А-Я and Ё. -/
def lowerChar (c : Char) : Char :=
  if 'A' ≤ c && c ≤ 'Z' then Char.ofNat (c.toNat + 32)
  else if 0xc0 ≤ c.toNat && c.toNat ≤ 0xde && c.toNat ≠ 0xd7 then Char.ofNat (c.toNat + 32)
  else if 0x410 ≤ c.toNat && c.toNat ≤ 0x42f then Char.ofNat (c.toNat + 32)
  else if c.toNat = 0x401 then Char.ofNat 0x451
  else c

/-! ## Link extraction: `extract_links` (bot.py lines 28, 31-32)

`URL_REGEX = r"(https?://[^\s]+)"`, searched with `re.findall(...,
flags=re.IGNORECASE)`: left-to-right, non-overlapping; at each position the
scheme `http` / optional `s` / `://` is matched case-insensitively, then a
maximal nonempty run of non-whitespace characters. -/

/-- Case-insensitive literal-prefix strip: `stripCI pat l` succeeds when the
first `pat.length` characters of `l` lower to `pat`, returning the consumed
characters (original case) and the rest. -/
def stripCI : List Char → List Char → Option (List Char × List Char)
  | [], l => some ([], l)
  | _ :: _, [] => none
  | p :: ps, c :: cs =>
    if lowerChar c = p then
      (stripCI ps cs).map (fun pr => (c :: pr.1, pr.2))
    else none

/-- One attempted match of `https?://[^\s]+` at the head of `l`; on success
returns the matched characters and the remaining input.  The greedy `s?` is
realised by trying the `https://` scheme first (when the `https://` scheme
matches, the `http://` scheme cannot, and vice versa). -/
def matchUrl (l : List Char) : Option (List Char × List Char) :=
  match stripCI ("https://".data) l with
  | some (pre, rest) =>
    let tok := rest.takeWhile (fun c => !isSpaceC c)
    if tok.isEmpty then none
    else some (pre ++ tok, rest.dropWhile (fun c => !isSpaceC c))
  | none =>
    match stripCI ("http://".data) l with
    | some (pre, rest) =>
      let tok := rest.takeWhile (fun c => !isSpaceC c)
      if tok.isEmpty then none
      else some (pre ++ tok, rest.dropWhile (fun c => !isSpaceC c))
    | none => none

/-- The `re.findall` scan: left to right, at each position attempt a match;
on success emit it and resume after its end, otherwise advance one character.
The `fuel` argument only bounds the iteration count (each step strictly
shortens the input, so `l.length` fuel is always enough); it keeps the
recursion structural so that the function evaluates inside the kernel. -/
def scanLinksF : Nat → List Char → List (List Char)
  | 0, _ => []
  | _ + 1, [] => []
  | fuel + 1, c :: rest =>
    match matchUrl (c :: rest) with
    | some (m, r) => m :: scanLinksF fuel r
    | none => scanLinksF fuel rest

def scanLinks (l : List Char) : List (List Char) :=
  scanLinksF l.length l

/-- Function `extract_links` (bot.py line 31-32): all matches of
`(https?://[^\s]+)` with `re.IGNORECASE`, in order of occurrence.
An absent text is passed in as the empty string (bot.py line 79). -/
def extract_links (t : String) : List String :=
  (scanLinks t.data).map (fun l => String.mk l)

/-- Spec-side shape of a link, taken from the words of the specification:
a `scheme://`-prefixed, non-whitespace token with case-insensitive scheme. -/
def UrlShape (m : List Char) : Prop :=
  ((m.take 7).map lowerChar = "http://".data ∧ m.drop 7 ≠ [] ∧
    ∀ c ∈ m.drop 7, isSpaceC c = false) ∨
  ((m.take 8).map lowerChar = "https://".data ∧ m.drop 8 ≠ [] ∧
    ∀ c ∈ m.drop 8, isSpaceC c = false)

instance (m : List Char) : Decidable (UrlShape m) := by
  unfold UrlShape; infer_instance

/-! ## Keyword classification: `matches_keywords` (bot.py lines 23-26, 34-36)

`KEYWORDS` is a list of word-boundary regexes searched with `re.search` in
the lower-cased text.  Each pattern is of the form `\bword\b` or
`\bword(x)?\b`; under the existence semantics of `re.search` the optional
group patterns are equivalent to the two plain words, so the keyword set
is expanded accordingly (source order kept, expansions adjacent). -/

/-- Exact literal-prefix strip. -/
def stripExact : List Char → List Char → Option (List Char)
  | [], l => some l
  | _ :: _, [] => none
  | w :: ws, c :: cs => if c = w then stripExact ws cs else none

/-- Word `w` occurs at the head of `l` with a word boundary after it. -/
def matchWordAt (w : List Char) (l : List Char) : Bool :=
  match stripExact w l with
  | some [] => true
  | some (c :: _) => !isWordChar c
  | none => false

/-- Word boundary before the occurrence: start of string or a preceding
non-word character. -/
def leftBoundary : Option Char → Bool
  | none => true
  | some c => !isWordChar c

/-- Pattern `\bw\b` matches somewhere in the input (the previous character, if any,
is threaded along the scan). -/
def occursAsWord (w : List Char) (prev : Option Char) : List Char → Bool
  | [] => leftBoundary prev && matchWordAt w []
  | c :: r => (leftBoundary prev && matchWordAt w (c :: r)) || occursAsWord w (some c) r

/-- The expanded keyword set of `KEYWORDS` (bot.py lines 23-26). -/
def keywordWords : List (List Char) :=
  ["giveaway".data, "розыгрыш".data, "gift".data, "gifts".data,
   "star".data, "stars".data, "приз".data, "портал".data, "порталс".data,
   "portals".data, "тон".data, "ton".data]

/-- Function `matches_keywords` (bot.py lines 34-36): lower-case the text, then search
each keyword pattern; any match wins. -/
def matches_keywords (t : String) : Bool :=
  keywordWords.any (fun w => occursAsWord w none (t.data.map lowerChar))

/-- The classification of bot.py lines 79-81 (`Classify` in the spec):
`is_giveaway = matches_keywords(text) or bool(links)`, links as extracted. -/
def classify (t : String) : Bool × List String :=
  (matches_keywords t || !(extract_links t).isEmpty, extract_links t)

/-! ## Deadline extraction: `extract_deadline` (bot.py lines 29, 38-56)

`DEADLINE_HINTS` holds three regexes, searched in order with
`re.IGNORECASE`; on the first search hit, the captured group is handed to
the external parser, whose success value is returned unconditionally (a
parse exception moves on to the next pattern). -/

/-- Pattern `\d{1,2}[:.]\d{2}` anchored at the head, two hour digits (the greedy
branch of `\d{1,2}`). -/
def matchTime2 : List Char → Option (List Char)
  | d1 :: d2 :: s :: m1 :: m2 :: _ =>
    if isDigitC d1 && isDigitC d2 && (s = ':' || s = '.') && isDigitC m1 && isDigitC m2 then
      some [d1, d2, s, m1, m2]
    else none
  | _ => none

/-- Pattern `\d{1,2}[:.]\d{2}` anchored at the head, one hour digit (the backtracked
branch). -/
def matchTime1 : List Char → Option (List Char)
  | d1 :: s :: m1 :: m2 :: _ =>
    if isDigitC d1 && (s = ':' || s = '.') && isDigitC m1 && isDigitC m2 then
      some [d1, s, m1, m2]
    else none
  | _ => none

/-- Pattern `\d{1,2}[:.]\d{2}` anchored at the head (greedy two digits first). -/
def matchTime (l : List Char) : Option (List Char) :=
  match matchTime2 l with
  | some g => some g
  | none => matchTime1 l

/-- Pattern `до\s+(\d{1,2}[:.]\d{2})` attempted at the head of `l` (case-insensitive
`до`; `\s+` and `\d` are disjoint, so the greedy run of whitespace followed
by the time group is exact). -/
def matchHint1At (l : List Char) : Option (List Char) :=
  match l with
  | c1 :: c2 :: rest =>
    if lowerChar c1 = 'д' && lowerChar c2 = 'о' then
      match rest with
      | c3 :: _ => if isSpaceC c3 then matchTime (rest.dropWhile isSpaceC) else none
      | [] => none
    else none
  | _ => none

/-- Search as `re.search`: try the anchored matcher at every position, left to right. -/
def searchWith (m : List Char → Option (List Char)) : List Char → Option (List Char)
  | [] => none
  | c :: r =>
    match m (c :: r) with
    | some g => some g
    | none => searchWith m r

/-- The capture group `([^\n]+)` attempted at the head: nonempty, greedy. -/
def groupOpt : List Char → Option (List Char)
  | [] => none
  | c :: rest => if c = '\n' then none else some ((c :: rest).takeWhile (fun x => x ≠ '\n'))

/-- Backtracking of the greedy `[:\s]+` run before `([^\n]+)`: `givable`
holds, nearest first, the run characters that may be given back (all but
the first, since the run needs at least one character). -/
def giveBack : List Char → List Char → Option (List Char)
  | [], tail => groupOpt tail
  | g :: gs, tail =>
    match groupOpt tail with
    | some grp => some grp
    | none => giveBack gs (g :: tail)

/-- Pattern `deadline[:\s]+([^\n]+)` attempted at the head (case-insensitive). -/
def matchHint2At (l : List Char) : Option (List Char) :=
  match stripCI ("deadline".data) l with
  | some (_, rest) =>
    let run := rest.takeWhile (fun c => c = ':' || isSpaceC c)
    if run.isEmpty then none
    else giveBack ((run.drop 1).reverse) (rest.dropWhile (fun c => c = ':' || isSpaceC c))
  | none => none

/-- Tail of the alternation `\d{1,2}\s+\w+` after the digits: at least one
whitespace character (all of them, greedily), then at least one word
character (all of them, greedily; `\s` and `\w` are disjoint). -/
def alt1After (rest : List Char) : Option (List Char) :=
  let sp := rest.takeWhile isSpaceC
  let t2 := rest.dropWhile isSpaceC
  let w := t2.takeWhile isWordChar
  if sp.isEmpty || w.isEmpty then none else some (sp ++ w)

/-- Pattern `\d{1,2}\s+\w+` anchored at the head (greedy two digits, with the
one-digit backtrack). -/
def matchAlt1 : List Char → Option (List Char)
  | [] => none
  | d1 :: rest =>
    if isDigitC d1 then
      match rest with
      | d2 :: rest2 =>
        if isDigitC d2 then
          match alt1After rest2 with
          | some s => some (d1 :: d2 :: s)
          | none =>
            match alt1After rest with
            | some s => some (d1 :: s)
            | none => none
        else
          match alt1After rest with
          | some s => some (d1 :: s)
          | none => none
      | [] => none
    else none

/-- The lazy gap `[^\n]*?` followed by the alternation
`(\d{1,2}\s+\w+|\d{1,2}[:.]\d{2})`: smallest gap first; at each point the
first alternative is preferred. -/
def lazyGap : List Char → Option (List Char)
  | [] => none
  | c :: r =>
    match matchAlt1 (c :: r) with
    | some g => some g
    | none =>
      match matchTime (c :: r) with
      | some g => some g
      | none => if c = '\n' then none else lazyGap r

/-- Pattern `заканч[^\n]*?(\d{1,2}\s+\w+|\d{1,2}[:.]\d{2})` attempted at the head
(case-insensitive `заканч`). -/
def matchHint3At (l : List Char) : Option (List Char) :=
  match stripCI ("заканч".data) l with
  | some (_, rest) => lazyGap rest
  | none => none

def searchHint1 : List Char → Option (List Char) := searchWith matchHint1At

def searchHint2 : List Char → Option (List Char) := searchWith matchHint2At

def searchHint3 : List Char → Option (List Char) := searchWith matchHint3At

/-- One iteration of the hint loop (bot.py lines 49-55): if the pattern has
a search hit, hand the captured group to the parser and return its value on
success; a parse exception, like a search miss, continues with `k`. -/
def hintStep (search : List Char → Option (List Char)) (parse : String → Option Nat)
    (t : String) (k : Option Nat) : Option Nat :=
  match search t.data with
  | some g =>
    match parse (String.mk g) with
    | some dt => some dt
    | none => k
  | none => k

/-- The ordered `DEADLINE_HINTS` loop (bot.py lines 29, 49-55). -/
def hintChain (parse : String → Option Nat) (t : String) : Option Nat :=
  hintStep searchHint1 parse t
    (hintStep searchHint2 parse t
      (hintStep searchHint3 parse t none))

/-- Function `extract_deadline` (bot.py lines 38-56), parameterised by the external
parser (step 1 calls it on the whole text; `none` models a parse exception
or the absence of a date).  A step-1 value is kept only when strictly after
`now` (line 44); otherwise, and on exception, the hint loop runs. -/
def extract_deadline (parse : String → Option Nat) (now : Nat) (t : String) : Option Nat :=
  if t = "" then none
  else
    match parse t with
    | some dt => if now < dt then some dt else hintChain parse t
    | none => hintChain parse t

/-- Head-anchored time token `H:MM` / `HH:MM` with valid hour and minute,
returning its value. -/
def dv (c : Char) : Nat := c.toNat - 48

def mkHM (h m : Nat) : Option (Nat × Nat) :=
  if h < 24 && m < 60 then some (h, m) else none

def timeAt (l : List Char) : Option (Nat × Nat) :=
  match l with
  | d1 :: d2 :: rest =>
    if isDigitC d1 && isDigitC d2 then
      match rest with
      | s :: m1 :: m2 :: _ =>
        if s = ':' && isDigitC m1 && isDigitC m2 then
          mkHM (10 * dv d1 + dv d2) (10 * dv m1 + dv m2)
        else none
      | _ => none
    else if isDigitC d1 && d2 = ':' then
      match rest with
      | m1 :: m2 :: _ =>
        if isDigitC m1 && isDigitC m2 then mkHM (dv d1) (10 * dv m1 + dv m2) else none
      | _ => none
    else none
  | _ => none

def findTimeToken : List Char → Option (Nat × Nat)
  | [] => none
  | c :: r =>
    match timeAt (c :: r) with
    | some hm => some hm
    | none => findTimeToken r

/-- Modelled from the spec: the general fuzzy date parser is the external
dateutil library, which is not part of the repository source.  Following
the specification of the Deadline Extractor, this models its behaviour on
texts carrying a bare time-of-day token: the fuzzy scan skips non-date
words, finds an `HH:MM` token, and resolves the missing date fields from
the current day (the default is today at midnight), giving today at HH:MM
local time; when no such token is present the parse fails (`none`). -/
def parseModel (now : Nat) (s : String) : Option Nat :=
  match findTimeToken s.data with
  | some (h, m) => some ((now / 1440) * 1440 + (h * 60 + m))
  | none => none

/-! ## Event registry and handlers (bot.py lines 19, 58-69, 77-138)

`GIVEAWAYS` is a Python dict (insertion-ordered, unique keys), embedded as
an association list: assignment to a present key replaces the value in
place, assignment to a fresh key appends. -/

/-- One entry of `GIVEAWAYS` (bot.py lines 89-95). -/
structure Record where
  from_chat : Option String
  text : String
  links : List String
  deadline : Option Nat
  archived : Bool
deriving DecidableEq

abbrev Registry := List (String × Record)

/-- Lookup `GIVEAWAYS.get(gid)` (bot.py line 109). -/
def regGet : Registry → String → Option Record
  | [], _ => none
  | (k, r) :: t, gid => if k = gid then some r else regGet t gid

/-- Assignment `GIVEAWAYS[gid] = {...}` (bot.py line 89): dict assignment, replacing in
place when the key exists, appending otherwise. -/
def dictInsert (k : String) (v : Record) : Registry → Registry
  | [] => [(k, v)]
  | (k0, v0) :: t => if k0 = k then (k0, v) :: t else (k0, v0) :: dictInsert k v t

/-- Mutation `GIVEAWAYS[gid]["archived"] = True` guarded by `gid in GIVEAWAYS`
(bot.py line 127). -/
def archiveOp : Registry → String → Registry
  | [], _ => []
  | (k, r) :: t, gid =>
    if k = gid then (k, { r with archived := true }) :: t
    else (k, r) :: archiveOp t gid

/-- The active-records listing of `list_cmd` (bot.py lines 131, 136):
filter out archived records (insertion order kept) and keep the first
`limit` of them (`active[:20]` in the source). -/
def list_active (reg : Registry) (limit : Nat) : Registry :=
  (reg.filter (fun p => !p.2.archived)).take limit

/-- The confirmation text of bot.py lines 97-99, including the
`from_chat or "переслано"` falsy check. -/
def mkTitle (fc : Option String) (gid : String) (deadline : Option Nat) : String :=
  let src := match fc with
    | some s => if s = "" then "переслано" else s
    | none => "переслано"
  let base := "🎁 Розыгрыш (" ++ src ++ ")\nID: " ++ gid
  match deadline with
  | some d => base ++ "\nДедлайн: " ++ toString d
  | none => base

/-- Handler `handle_forward` (bot.py lines 77-104), restricted to its state and
reply: classify, and if a giveaway, store a record under the freshly
generated identifier `gen` (`str(uuid4())[:8]` in the source, supplied
here as an argument since it is a random value). -/
def handle_forward (parse : String → Option Nat) (now : Nat) (gen : String)
    (forward_chat : Option String) (text : String) (reg : Registry) :
    Registry × String :=
  let links := extract_links text
  if matches_keywords text || !links.isEmpty then
    (dictInsert gen
      { from_chat := forward_chat, text := text, links := links,
        deadline := extract_deadline parse now text, archived := false } reg,
     mkTitle forward_chat gen (extract_deadline parse now text))
  else
    (reg, "Не похоже на розыгрыш. Если всё же он — пришли сообщение с ссылкой/условиями.")

/-- A scheduled reminder job (bot.py lines 106-114): the closure captures
only the chat id and the event id; `fireAt = now + minutes`. -/
structure Job where
  chat : Nat
  gid : String
  fireAt : Nat
deriving DecidableEq

def schedule_reminder (now chat : Nat) (gid : String) (minutes : Nat) : Job :=
  { chat := chat, gid := gid, fireAt := now + minutes }

/-- The message a fired job sends (bot.py lines 111-113): text plus the
link buttons built from the record (`links[:4]`, bot.py line 60). -/
structure Notification where
  chat : Nat
  text : String
  buttonLinks : List String
deriving DecidableEq

/-- The job body (bot.py lines 108-113), applied to the registry state at
fire time: look the event up afresh; if it is gone or archived, do nothing. -/
def fireJob (j : Job) (reg : Registry) : Option Notification :=
  match regGet reg j.gid with
  | none => none
  | some g =>
    if g.archived then none
    else some { chat := j.chat, text := "⏰ Напоминание по розыгрышу " ++ j.gid,
                buttonLinks := g.links.take 4 }

/-- A well-formed callback token, `remind:<id>:<minutes>` or
`archive:<id>` (the forms produced by `build_buttons`, bot.py lines 63-68). -/
inductive BtnAction where
  | remind (gid : String) (mins : Nat)
  | archive (gid : String)

/-- Handler `on_button` (bot.py lines 116-128): resulting registry, scheduled job
if any, and the edited reply text. -/
def on_button (now chat : Nat) (a : BtnAction) (reg : Registry) :
    Registry × Option Job × String :=
  match a with
  | .remind gid mins =>
    (reg, some (schedule_reminder now chat gid mins),
     "Напоминание поставлено через " ++ toString mins ++ " мин. (ID: " ++ gid ++ ")")
  | .archive gid =>
    (archiveOp reg gid, none, "Розыгрыш " ++ gid ++ " отправлен в архив.")

/-- Sample records for the concrete scenarios. -/
def recA : Record :=
  { from_chat := none, text := "a", links := [], deadline := none, archived := false }

def recB : Record :=
  { from_chat := none, text := "b", links := [], deadline := none, archived := false }

def recC : Record :=
  { from_chat := none, text := "c", links := [], deadline := none, archived := false }

/-! ## Helper lemmas -/

theorem stripCI_sound : ∀ (pat l pre rest : List Char),
    stripCI pat l = some (pre, rest) →
    pre ++ rest = l ∧ pre.map lowerChar = pat
  | [], l, pre, rest, h => by
    simp only [stripCI, Option.some.injEq, Prod.mk.injEq] at h
    simp [← h.1, ← h.2]
  | _ :: _, [], pre, rest, h => by simp [stripCI] at h
  | p :: ps, c :: cs, pre, rest, h => by
    by_cases hc : lowerChar c = p
    · cases hs : stripCI ps cs with
      | none => simp [stripCI, hc, hs] at h
      | some pr =>
        obtain ⟨pre0, rest0⟩ := pr
        have ih := stripCI_sound ps cs pre0 rest0 hs
        simp only [stripCI, hc, eq_self_iff_true, if_true, hs, Option.map_some',
          Option.some.injEq, Prod.mk.injEq] at h
        rw [← h.1, ← h.2]
        simp [ih.1, ih.2, hc]
    · simp [stripCI, hc] at h

theorem stripCI_complete : ∀ (pre rest : List Char),
    stripCI (pre.map lowerChar) (pre ++ rest) = some (pre, rest)
  | [], rest => by simp [stripCI]
  | c :: cs, rest => by
    simp [stripCI, stripCI_complete cs rest]

/-- Length bound used for fuel sufficiency of the scanner. -/
theorem matchUrl_rest_lt : ∀ (l m r : List Char),
    matchUrl l = some (m, r) → r.length < l.length := by
  intro l m r h
  simp only [matchUrl] at h
  cases h1 : stripCI ("https://".data) l with
  | some pr =>
    obtain ⟨pre, rest⟩ := pr
    rw [h1] at h
    simp only at h
    by_cases he : (rest.takeWhile (fun c => !isSpaceC c)).isEmpty
    · simp [he] at h
    · simp only [he, Bool.false_eq_true, if_false, Option.some.injEq, Prod.mk.injEq] at h
      obtain ⟨h2, h3⟩ := h
      have hsound := stripCI_sound _ _ _ _ h1
      have hlen : pre.length = 8 := by
        have := congrArg List.length hsound.2
        simpa using this
      have hr : r.length ≤ rest.length := by
        rw [← h3]; exact List.Sublist.length_le (List.dropWhile_sublist _)
      have : rest.length + 8 = l.length := by
        have := congrArg List.length hsound.1
        simpa [hlen, Nat.add_comm] using this
      omega
  | none =>
    rw [h1] at h
    cases h2 : stripCI ("http://".data) l with
    | some pr =>
      obtain ⟨pre, rest⟩ := pr
      rw [h2] at h
      simp only at h
      by_cases he : (rest.takeWhile (fun c => !isSpaceC c)).isEmpty
      · simp [he] at h
      · simp only [he, Bool.false_eq_true, if_false, Option.some.injEq, Prod.mk.injEq] at h
        obtain ⟨h3, h4⟩ := h
        have hsound := stripCI_sound _ _ _ _ h2
        have hlen : pre.length = 7 := by
          have := congrArg List.length hsound.2
          simpa using this
        have hr : r.length ≤ rest.length := by
          rw [← h4]; exact List.Sublist.length_le (List.dropWhile_sublist _)
        have : rest.length + 7 = l.length := by
          have := congrArg List.length hsound.1
          simpa [hlen, Nat.add_comm] using this
        omega
    | none => rw [h2] at h; exact absurd h (by simp)

theorem matchUrl_sound (l m r : List Char) (h : matchUrl l = some (m, r)) :
    m ++ r = l ∧ UrlShape m := by
  simp only [matchUrl] at h
  cases h1 : stripCI ("https://".data) l with
  | some pr =>
    obtain ⟨pre, rest⟩ := pr
    rw [h1] at h
    simp only at h
    by_cases he : (rest.takeWhile (fun c => !isSpaceC c)).isEmpty
    · simp [he] at h
    · simp only [he, Bool.false_eq_true, if_false, Option.some.injEq, Prod.mk.injEq] at h
      obtain ⟨hm, hr⟩ := h
      have hsound := stripCI_sound _ _ _ _ h1
      have hlen : pre.length = 8 := by
        have := congrArg List.length hsound.2; simpa using this
      constructor
      · rw [← hm, ← hr, List.append_assoc, List.takeWhile_append_dropWhile, hsound.1]
      · right
        refine ⟨?_, ?_, ?_⟩
        · rw [← hm, List.take_left' hlen, hsound.2]
        · rw [← hm, List.drop_left' hlen]
          simpa using he
        · rw [← hm, List.drop_left' hlen]
          intro c hc
          have := List.mem_takeWhile_imp hc
          simpa using this
  | none =>
    rw [h1] at h
    cases h2 : stripCI ("http://".data) l with
    | some pr =>
      obtain ⟨pre, rest⟩ := pr
      rw [h2] at h
      simp only at h
      by_cases he : (rest.takeWhile (fun c => !isSpaceC c)).isEmpty
      · simp [he] at h
      · simp only [he, Bool.false_eq_true, if_false, Option.some.injEq, Prod.mk.injEq] at h
        obtain ⟨hm, hr⟩ := h
        have hsound := stripCI_sound _ _ _ _ h2
        have hlen : pre.length = 7 := by
          have := congrArg List.length hsound.2; simpa using this
        constructor
        · rw [← hm, ← hr, List.append_assoc, List.takeWhile_append_dropWhile, hsound.1]
        · left
          refine ⟨?_, ?_, ?_⟩
          · rw [← hm, List.take_left' hlen, hsound.2]
          · rw [← hm, List.drop_left' hlen]
            simpa using he
          · rw [← hm, List.drop_left' hlen]
            intro c hc
            have := List.mem_takeWhile_imp hc
            simpa using this
    | none => rw [h2] at h; exact absurd h (by simp)

/-- A string of the specified URL shape placed at the start of the input is
found by the single-position matcher. -/
theorem matchUrl_of_shape (m : List Char) (hs : UrlShape m) (b : List Char) :
    matchUrl (m ++ b) ≠ none := by
  rcases hs with ⟨hpat, hne, hsp⟩ | ⟨hpat, hne, hsp⟩
  · -- http:// case; the https:// strip must fail first
    have hlen7 : 7 ≤ m.length := by
      by_contra hcon
      push_neg at hcon
      have : m.take 7 = m := List.take_of_length_le (by omega)
      rw [this] at hpat
      have h7 : m.length = 7 := by
        have := congrArg List.length hpat; simpa using this
      omega
    have hfail : stripCI ("https://".data) (m ++ b) = none := by
      cases hq : stripCI ("https://".data) (m ++ b) with
      | none => rfl
      | some pr =>
        obtain ⟨pre, rest⟩ := pr
        have hsnd := stripCI_sound _ _ _ _ hq
        have hlen : pre.length = 8 := by
          have := congrArg List.length hsnd.2; simpa using this
        have htk : (m ++ b).take 8 = pre := by
          rw [← hsnd.1, List.take_left' hlen]
        have h8 : ((m ++ b).take 8).map lowerChar = "https://".data := by
          rw [htk, hsnd.2]
        have h7 : ((m ++ b).take 7).map lowerChar = ("https://".data).take 7 := by
          have : (m ++ b).take 7 = ((m ++ b).take 8).take 7 := by
            rw [List.take_take]; norm_num
          rw [this, List.map_take, h8]
        rw [List.take_append_of_le_length hlen7, hpat] at h7
        exact absurd h7 (by decide)
    obtain ⟨c0, tok0, htok⟩ := List.exists_cons_of_ne_nil hne
    have hm : m = m.take 7 ++ (c0 :: tok0) := by
      rw [← htok, List.take_append_drop]
    have hstrip : stripCI ("http://".data) (m ++ b) =
        some (m.take 7, (c0 :: tok0) ++ b) := by
      conv in m ++ b => rw [hm, List.append_assoc]
      rw [← hpat]
      exact stripCI_complete _ _
    have hc0 : isSpaceC c0 = false := hsp c0 (by rw [htok]; exact List.mem_cons_self _ _)
    intro hnone
    simp [matchUrl, hfail, hstrip, List.takeWhile_cons, hc0] at hnone
  · -- https:// case
    obtain ⟨c0, tok0, htok⟩ := List.exists_cons_of_ne_nil hne
    have hm : m = m.take 8 ++ (c0 :: tok0) := by
      rw [← htok, List.take_append_drop]
    have hstrip : stripCI ("https://".data) (m ++ b) =
        some (m.take 8, (c0 :: tok0) ++ b) := by
      conv in m ++ b => rw [hm, List.append_assoc]
      rw [← hpat]
      exact stripCI_complete _ _
    have hc0 : isSpaceC c0 = false := hsp c0 (by rw [htok]; exact List.mem_cons_self _ _)
    intro hnone
    simp [matchUrl, hstrip, List.takeWhile_cons, hc0] at hnone

/-- Every emitted link has the specified URL shape and occurs in the input. -/
theorem scanLinksF_sound : ∀ (fuel : Nat) (l m : List Char),
    m ∈ scanLinksF fuel l → UrlShape m ∧ m <:+: l
  | 0, _, m, h => by simp [scanLinksF] at h
  | _ + 1, [], m, h => by simp [scanLinksF] at h
  | fuel + 1, c :: rest, m, h => by
    cases hm : matchUrl (c :: rest) with
    | some pr =>
      obtain ⟨m0, r⟩ := pr
      simp only [scanLinksF, hm, List.mem_cons] at h
      have hsnd := matchUrl_sound _ _ _ hm
      cases h with
      | inl heq =>
        subst heq
        exact ⟨hsnd.2, ⟨[], r, by simpa using hsnd.1⟩⟩
      | inr hmem =>
        have ih := scanLinksF_sound fuel r m hmem
        refine ⟨ih.1, ih.2.trans ?_⟩
        exact ⟨m0, [], by simp [hsnd.1]⟩
    | none =>
      simp only [scanLinksF, hm] at h
      have ih := scanLinksF_sound fuel rest m h
      exact ⟨ih.1, ih.2.trans (List.infix_cons (List.infix_refl rest))⟩

/-- If some infix of the input has the URL shape, the scan finds a link. -/
theorem scanLinksF_complete : ∀ (fuel : Nat) (l : List Char),
    l.length ≤ fuel → (∃ m, UrlShape m ∧ m <:+: l) → scanLinksF fuel l ≠ []
  | 0, l, hf, ⟨m, hm, hinf⟩ => by
    have h0 : l = [] := by
      have := Nat.le_zero.mp hf
      exact List.length_eq_zero.mp this
    subst h0
    have hml : m = [] := List.eq_nil_of_infix_nil hinf
    subst hml
    rcases hm with ⟨hp, _, _⟩ | ⟨hp, _, _⟩ <;> simp at hp
  | fuel + 1, [], _, ⟨m, hm, hinf⟩ => by
    have hml : m = [] := List.eq_nil_of_infix_nil hinf
    subst hml
    rcases hm with ⟨hp, _, _⟩ | ⟨hp, _, _⟩ <;> simp at hp
  | fuel + 1, c :: rest, hf, ⟨m, hm, hinf⟩ => by
    cases hq : matchUrl (c :: rest) with
    | some pr =>
      obtain ⟨m0, r⟩ := pr
      simp [scanLinksF, hq]
    | none =>
      simp only [scanLinksF, hq]
      obtain ⟨a, b, hab⟩ := hinf
      cases a with
      | nil =>
        exfalso
        have hne := matchUrl_of_shape m hm b
        rw [List.nil_append] at hab
        rw [hab] at hne
        exact hne hq
      | cons a0 as =>
        have hab' : as ++ m ++ b = rest := by
          have := hab
          simp only [List.cons_append, List.cons.injEq] at this
          exact this.2
        have hlen : rest.length ≤ fuel := by
          have := hf
          simp only [List.length_cons] at this
          omega
        exact scanLinksF_complete fuel rest hlen ⟨m, hm, ⟨as, b, hab'⟩⟩

theorem scanLinks_sound (l m : List Char) (h : m ∈ scanLinks l) :
    UrlShape m ∧ m <:+: l :=
  scanLinksF_sound l.length l m h

theorem scanLinks_empty_iff (l : List Char) :
    scanLinks l = [] ↔ ¬ ∃ m, UrlShape m ∧ m <:+: l := by
  constructor
  · intro h hex
    exact scanLinksF_complete l.length l (Nat.le_refl _) hex h
  · intro h
    cases hs : scanLinks l with
    | nil => rfl
    | cons m ms =>
      exfalso
      have hmem : m ∈ scanLinks l := by rw [hs]; exact List.mem_cons_self _ _
      exact h ⟨m, (scanLinks_sound l m hmem).1, (scanLinks_sound l m hmem).2⟩

/-! ## Registry helper lemmas -/

theorem regGet_dictInsert_self : ∀ (reg : Registry) (k : String) (v : Record),
    regGet (dictInsert k v reg) k = some v
  | [], k, v => by simp [dictInsert, regGet]
  | (k0, v0) :: t, k, v => by
    by_cases hk : k0 = k
    · simp [dictInsert, regGet, hk]
    · simp [dictInsert, regGet, hk, regGet_dictInsert_self t k v]

theorem dictInsert_of_missing : ∀ (reg : Registry) (k : String) (v : Record),
    regGet reg k = none → dictInsert k v reg = reg ++ [(k, v)]
  | [], k, v, _ => rfl
  | (k0, v0) :: t, k, v, h => by
    by_cases hk : k0 = k
    · simp [regGet, hk] at h
    · simp only [regGet, hk, if_false] at h
      simp [dictInsert, hk, dictInsert_of_missing t k v h]

theorem dictInsert_keys_of_present : ∀ (reg : Registry) (k : String) (v : Record),
    (∃ r0, regGet reg k = some r0) →
    (dictInsert k v reg).map Prod.fst = reg.map Prod.fst
  | [], k, v, ⟨r0, h⟩ => by simp [regGet] at h
  | (k0, v0) :: t, k, v, ⟨r0, h⟩ => by
    by_cases hk : k0 = k
    · simp [dictInsert, hk]
    · simp only [regGet, hk, if_false] at h
      simp [dictInsert, hk, dictInsert_keys_of_present t k v ⟨r0, h⟩]

theorem regGet_archiveOp : ∀ (reg : Registry) (gid k : String),
    regGet (archiveOp reg gid) k =
      if k = gid then (regGet reg gid).map (fun g => { g with archived := true })
      else regGet reg k
  | [], gid, k => by simp [archiveOp, regGet]
  | (k0, r) :: t, gid, k => by
    by_cases h0 : k0 = gid
    · subst h0
      by_cases hk : k0 = k
      · subst hk
        simp [archiveOp, regGet]
      · have : ¬ k = k0 := fun h => hk h.symm
        simp [archiveOp, regGet, hk, this]
    · by_cases hk : k0 = k
      · subst hk
        simp [archiveOp, regGet, h0]
      · simp [archiveOp, regGet, h0, hk, regGet_archiveOp t gid k]

theorem archiveOp_of_missing : ∀ (reg : Registry) (gid : String),
    regGet reg gid = none → archiveOp reg gid = reg
  | [], gid, _ => rfl
  | (k0, r) :: t, gid, h => by
    by_cases hk : k0 = gid
    · simp [regGet, hk] at h
    · simp only [regGet, hk, if_false] at h
      simp [archiveOp, hk, archiveOp_of_missing t gid h]

theorem archiveOp_idem : ∀ (reg : Registry) (gid : String),
    archiveOp (archiveOp reg gid) gid = archiveOp reg gid
  | [], gid => rfl
  | (k0, r) :: t, gid => by
    by_cases hk : k0 = gid
    · simp [archiveOp, hk]
    · simp [archiveOp, hk, archiveOp_idem t gid]

/-! ## Claim theorems -/

/-- C1: for every text `t`, the classification flag is true exactly when the
lower-cased text has a word-boundary keyword match or a link was extracted;
in particular any text containing a URL-shaped substring is a candidate,
and a text with no keyword match and no URL-shaped substring is not. -/
theorem classify_isCandidate_spec (t : String) :
    ((classify t).1 = (matches_keywords t || !(extract_links t).isEmpty)) ∧
    ((∃ m, UrlShape m ∧ m <:+: t.data) → (classify t).1 = true) ∧
    (matches_keywords t = false → (¬ ∃ m, UrlShape m ∧ m <:+: t.data) →
      (classify t).1 = false) := by
  refine ⟨rfl, ?_, ?_⟩
  · intro hex
    have hne : scanLinks t.data ≠ [] := fun h => ((scanLinks_empty_iff t.data).mp h) hex
    have h2 : (extract_links t).isEmpty = false := by
      simp [extract_links, List.isEmpty_iff, hne]
    simp [classify, h2]
  · intro hkw hnex
    have h0 : scanLinks t.data = [] := (scanLinks_empty_iff t.data).mpr hnex
    have h2 : (extract_links t).isEmpty = true := by
      simp [extract_links, List.isEmpty_iff, h0]
    simp [classify, hkw, h2]

theorem classify_isCandidate_spec_witness :
    (classify "смотри http://a тут").1 = true ∧ (classify "просто текст!").1 = false := by
  constructor
  · exact (classify_isCandidate_spec "смотри http://a тут").2.1
      ⟨"http://a".data, by decide, by decide⟩
  · exact (classify_isCandidate_spec "просто текст!").2.2 (by decide)
      (fun hex => by
        have h0 : scanLinks ("просто текст!".data) = [] := by decide
        exact ((scanLinks_empty_iff _).mp h0) hex)

/-- C2: for every text, every extracted link is a URL-shaped substring of the
text; a link is found exactly when a URL-shaped substring exists; the empty
(or absent) text yields no links; and a concrete run shows first-seen order,
duplicates and case-insensitive schemes. -/
theorem extract_links_spec :
    (∀ t : List Char,
      (∀ m ∈ scanLinks t, UrlShape m ∧ m <:+: t) ∧
      (scanLinks t = [] ↔ ¬ ∃ m, UrlShape m ∧ m <:+: t)) ∧
    extract_links "" = [] ∧
    extract_links "see http://a and HTTPS://b http://a ok" =
      ["http://a", "HTTPS://b", "http://a"] :=
  ⟨fun t => ⟨fun m hm => scanLinks_sound t m hm, scanLinks_empty_iff t⟩,
   by decide, by decide⟩

theorem extract_links_spec_witness :
    UrlShape ("http://a".data) ∧ ("http://a".data) <:+: ("b http://a".data) :=
  (extract_links_spec.1 ("b http://a".data)).1 ("http://a".data) (by decide)

/-- C3: a reminder job carries only the chat and event ids; firing applies
the callback to the registry state at fire time, and when the event is then
missing or archived, no notification is produced — regardless of when or
with what parameters the job was scheduled. -/
theorem reminder_fire_noop (schedNow chat mins : Nat) (gid : String) (regFire : Registry)
    (h : regGet regFire gid = none ∨ ∃ g, regGet regFire gid = some g ∧ g.archived = true) :
    fireJob (schedule_reminder schedNow chat gid mins) regFire = none := by
  rcases h with h | ⟨g, hg, ha⟩
  · simp [fireJob, schedule_reminder, h]
  · simp [fireJob, schedule_reminder, hg, ha]

theorem reminder_fire_noop_witness :
    fireJob (schedule_reminder 0 7 "x" 10) [("x", { recA with archived := true })] = none :=
  reminder_fire_noop 0 7 10 "x" [("x", { recA with archived := true })]
    (Or.inr ⟨{ recA with archived := true }, by decide, by decide⟩)

/-- C5: the step-1 whole-text parse is kept only when strictly after `now`;
a value at or before `now` is discarded in favour of the hint loop, as is a
parse exception; and within the hint loop, a parse exception on a captured
group moves on to the next pattern — nothing propagates. -/
theorem extract_deadline_step1_policy (parse : String → Option Nat) (now : Nat)
    (t : String) (ht : t ≠ "") :
    (∀ dt, parse t = some dt → now < dt → extract_deadline parse now t = some dt) ∧
    (∀ dt, parse t = some dt → ¬ now < dt →
      extract_deadline parse now t = hintChain parse t) ∧
    (parse t = none → extract_deadline parse now t = hintChain parse t) ∧
    (∀ g, searchHint1 t.data = some g → parse (String.mk g) = none →
      hintChain parse t = hintStep searchHint2 parse t (hintStep searchHint3 parse t none)) := by
  refine ⟨?_, ?_, ?_, ?_⟩
  · intro dt hp hlt
    simp [extract_deadline, ht, hp, hlt]
  · intro dt hp hlt
    simp [extract_deadline, ht, hp, hlt]
  · intro hp
    simp [extract_deadline, ht, hp]
  · intro g hs hp
    simp [hintChain, hintStep, hs, hp]

theorem extract_deadline_step1_policy_witness :
    extract_deadline (fun s => if s = "x" then some 100 else none) 50 "x" = some 100 :=
  (extract_deadline_step1_policy (fun s => if s = "x" then some 100 else none) 50 "x"
    (by decide)).1 100 (by decide) (by decide)

/-- C4 counterexample: at minute 1200 of the day (20:00), the hint text
"до 18:00" makes the extractor return minute 1080 (18:00 of the same day),
an instant earlier than the current time, and the value comes from the hint
loop (step 1 only accepts strictly-future values). -/
theorem extract_deadline_hint_past_counterexample :
    extract_deadline (parseModel 1200) 1200 "до 18:00" = some 1080 ∧
    hintChain (parseModel 1200) "до 18:00" = some 1080 ∧
    1080 < 1200 := by decide

/-- C4 amended: on the hint text "до 18:00" the extractor always returns
18:00 of the current day — there is no roll-forward to a later day when
that instant has already passed, so the hint step can return a past
instant. -/
theorem extract_deadline_hint_today (now : Nat) :
    extract_deadline (parseModel now) now "до 18:00" =
      some ((now / 1440) * 1440 + 1080) := by
  have hft : findTimeToken ("до 18:00".data) = some (18, 0) := by decide
  have hp1 : parseModel now "до 18:00" = some ((now / 1440) * 1440 + 1080) := by
    simp [parseModel, hft]
  have hft2 : findTimeToken ((String.mk ("18:00".data)).data) = some (18, 0) := by decide
  have hp2 : parseModel now (String.mk ("18:00".data)) =
      some ((now / 1440) * 1440 + 1080) := by
    simp [parseModel, hft2]
  have hs1 : searchHint1 ("до 18:00".data) = some ("18:00".data) := by decide
  have hchain : hintChain (parseModel now) "до 18:00" =
      some ((now / 1440) * 1440 + 1080) := by
    simp [hintChain, hintStep, hs1, hp2]
  have hne : ¬ ("до 18:00" : String) = "" := by decide
  by_cases h : now < (now / 1440) * 1440 + 1080
  · simp [extract_deadline, hne, hp1, h]
  · simp [extract_deadline, hne, hp1, h, hchain]

/-- C10: on the empty (or absent) text the extractor returns `none` at once,
for every parser oracle and every current time — so neither the general
parse nor any hint pattern is consulted. -/
theorem extract_deadline_empty :
    ∀ (parse : String → Option Nat) (now : Nat), extract_deadline parse now "" = none :=
  fun _ _ => rfl

/-- C6 counterexample: with a registry already holding id "abcd1234",
`handle_forward` on a keyword text whose generated id collides silently
replaces the existing record: the id now maps to the new record and the old
one is gone — there is no detection and no retry. -/
theorem create_overwrite_counterexample :
    (handle_forward (parseModel 0) 0 "abcd1234" none "giveaway" [("abcd1234", recA)]).1 =
      [("abcd1234",
        { from_chat := none, text := "giveaway", links := [], deadline := none,
          archived := false })] ∧
    regGet (handle_forward (parseModel 0) 0 "abcd1234" none "giveaway"
      [("abcd1234", recA)]).1 "abcd1234" ≠ some recA := by decide

/-- C6 amended: creation stores the record under the generated identifier by
plain dict assignment: the id then maps to the new record; a fresh id is
appended, while a colliding id replaces the existing record in place (the
key sequence is unchanged) — the old record is silently lost, with no
collision detection or retry; distinctness rests on the improbability of a
collision between truncated random identifiers. -/
theorem create_insert_semantics (k : String) (v : Record) (reg : Registry) :
    regGet (dictInsert k v reg) k = some v ∧
    (regGet reg k = none → dictInsert k v reg = reg ++ [(k, v)]) ∧
    ((∃ r0, regGet reg k = some r0) →
      (dictInsert k v reg).map Prod.fst = reg.map Prod.fst) :=
  ⟨regGet_dictInsert_self reg k v,
   dictInsert_of_missing reg k v,
   dictInsert_keys_of_present reg k v⟩

theorem create_insert_semantics_witness :
    dictInsert "x" recA [] = ([] : Registry) ++ [("x", recA)] ∧
    (dictInsert "y" recB [("y", recA)]).map Prod.fst = [("y", recA)].map Prod.fst :=
  ⟨(create_insert_semantics "x" recA []).2.1 (by decide),
   (create_insert_semantics "y" recB [("y", recA)]).2.2 ⟨recA, by decide⟩⟩

/-- C7 counterexample: archiving an existing id (a state change) and
archiving a missing id (no change) return the identical fixed acknowledgment
and no indicator — the code reports no "change" / "no change" distinction. -/
theorem archive_report_counterexample :
    (on_button 0 5 (.archive "x") [("x", recA)]).2.2 =
      (on_button 0 5 (.archive "x") []).2.2 ∧
    (on_button 0 5 (.archive "x") [("x", recA)]).1 ≠ [("x", recA)] ∧
    (on_button 0 5 (.archive "x") []).1 = [] := by decide

/-- C7 amended: the archived flag is monotonic (set to true by an archive of
an existing id, and never reset — an already-true flag stays true); archive
on a missing id is a no-op and never an error, and a second archive changes
nothing; but the code returns no changed/unchanged report: the
acknowledgment is one fixed string. -/
theorem archive_monotone_idempotent (reg : Registry) (gid : String) :
    (∀ g, regGet reg gid = some g →
      regGet (archiveOp reg gid) gid = some { g with archived := true }) ∧
    (regGet reg gid = none → archiveOp reg gid = reg) ∧
    archiveOp (archiveOp reg gid) gid = archiveOp reg gid ∧
    (∀ k g g', regGet reg k = some g → g.archived = true →
      regGet (archiveOp reg gid) k = some g' → g'.archived = true) ∧
    (on_button 0 0 (.archive gid) reg).2.2 = "Розыгрыш " ++ gid ++ " отправлен в архив." := by
  refine ⟨?_, archiveOp_of_missing reg gid, archiveOp_idem reg gid, ?_, rfl⟩
  · intro g hg
    rw [regGet_archiveOp, if_pos rfl, hg, Option.map_some']
  · intro k g g' hg ha hg'
    rw [regGet_archiveOp] at hg'
    by_cases hk : k = gid
    · subst hk
      rw [if_pos rfl, hg, Option.map_some', Option.some.injEq] at hg'
      rw [← hg']
    · rw [if_neg hk, hg, Option.some.injEq] at hg'
      rw [← hg']
      exact ha

theorem archive_monotone_idempotent_witness :
    regGet (archiveOp [("x", recA)] "x") "x" = some { recA with archived := true } ∧
    archiveOp ([] : Registry) "zz" = [] :=
  ⟨(archive_monotone_idempotent [("x", recA)] "x").1 recA (by decide),
   (archive_monotone_idempotent [] "zz").2.1 (by decide)⟩

/-- C8 counterexample: the archive action on an unknown id produces exactly
the same acknowledgment text as on an existing id — a reply
indistinguishable from a successful action, and no "unknown id" message. -/
theorem unknown_id_reply_counterexample :
    regGet ([] : Registry) "zz" = none ∧
    regGet [("zz", recA)] "zz" = some recA ∧
    (on_button 0 5 (.archive "zz") []).2.2 =
      (on_button 0 5 (.archive "zz") [("zz", recA)]).2.2 := by decide

/-- C8 amended: actions carrying an unknown id never crash and are harmless
— archive leaves the registry unchanged, and a reminder job scheduled for
an unknown id fires without any notification — but the acknowledgment reply
is the same fixed success-style text as for a known id; no "unknown id"
reply exists in the code. -/
theorem unknown_id_actions_safe (now chat mins : Nat) (gid : String) (reg : Registry)
    (h : regGet reg gid = none) :
    (on_button now chat (.archive gid) reg).1 = reg ∧
    (on_button now chat (.archive gid) reg).2.2 =
      "Розыгрыш " ++ gid ++ " отправлен в архив." ∧
    (∀ j, (on_button now chat (.remind gid mins) reg).2.1 = some j →
      fireJob j reg = none) ∧
    (on_button now chat (.remind gid mins) reg).1 = reg := by
  refine ⟨?_, rfl, ?_, rfl⟩
  · simpa [on_button] using archiveOp_of_missing reg gid h
  · intro j hj
    simp only [on_button, Option.some.injEq] at hj
    rw [← hj]
    simp [fireJob, schedule_reminder, h]

theorem unknown_id_actions_safe_witness :
    (on_button 0 5 (BtnAction.archive "zz") [("x", recA)]).1 = [("x", recA)] :=
  (unknown_id_actions_safe 0 5 10 "zz" [("x", recA)] (by decide)).1

/-- C9: the active listing holds exactly non-archived records in insertion
order: every listed entry is a non-archived member of the registry, at most
`limit` are returned, the listing is an order-preserving sublist, and when
the active records fit in the limit all of them are returned; the concrete
scenario creates three records, archives the second, and lists the first
and third in creation order. -/
theorem list_active_spec :
    (∀ (reg : Registry) (limit : Nat),
      (∀ p ∈ list_active reg limit, p ∈ reg ∧ p.2.archived = false) ∧
      (list_active reg limit).length ≤ limit ∧
      List.Sublist (list_active reg limit) reg ∧
      ((reg.filter (fun p => !p.2.archived)).length ≤ limit →
        list_active reg limit = reg.filter (fun p => !p.2.archived))) ∧
    list_active
      (archiveOp (dictInsert "id3" recC (dictInsert "id2" recB (dictInsert "id1" recA [])))
        "id2") 20 = [("id1", recA), ("id3", recC)] := by
  constructor
  · intro reg limit
    refine ⟨?_, ?_, ?_, ?_⟩
    · intro p hp
      have h1 : p ∈ reg.filter (fun p => !p.2.archived) := List.mem_of_mem_take hp
      have h2 := List.mem_filter.mp h1
      exact ⟨h2.1, by simpa using h2.2⟩
    · simp only [list_active, List.length_take]
      exact Nat.min_le_left _ _
    · exact List.Sublist.trans (List.take_sublist _ _) (List.filter_sublist _)
    · intro hle
      simp only [list_active]
      exact List.take_of_length_le hle
  · decide

theorem list_active_spec_witness :
    ("id1", recA) ∈ ([("id1", recA)] : Registry) ∧ recA.archived = false :=
  (list_active_spec.1 [("id1", recA)] 20).1 ("id1", recA) (by decide)

end Bot
